import Mathlib

/-!
Shallow embedding of the data-reshaping / entity-resolution core of
`visualizations.py` (CRIM intervals visualization helpers), together with
proofs of the specified properties.

Conventions of the embedding:
* pandas `Series`/`DataFrame` columns become Lean lists; a row identifier
  (the pandas index label) is carried explicitly as a `Nat` where the code
  uses it.
* Python string `split` on a separator is embedded as a structurally
  recursive function on the character list of the string, so that all
  definitions evaluate inside the kernel.
* missing values (`NaN` / `pd.NA`) become `Option`.
* numeric offsets and durations become `ℚ` (the code uses floats only as
  exact carriers of offsets/durations here).
* code that raises becomes `Except String _` / `Option`.
-/

/-- Python `s.split(sep)` for a single-character separator, on character
lists.  Always returns a non-empty list; `"".split(c) = [""]`. -/
def splitOnCharList (c : Char) : List Char → List (List Char)
  | [] => [[]]
  | a :: as =>
    match splitOnCharList c as with
    | [] => if a = c then [[], []] else [[a]]
    | g :: gs => if a = c then [] :: g :: gs else (a :: g) :: gs

/-- Python `s.split(sep)` for a single-character separator, on strings. -/
def pySplit (c : Char) (s : String) : List String :=
  (splitOnCharList c s.data).map fun l => ⟨l⟩

/-- Python `s.split(", ")` (the two-character separator used by
`score_ngram` to tokenize patterns), scanning left to right and skipping
both characters at a match. -/
def splitCommaSpace : List Char → List (List Char)
  | [] => [[]]
  | [a] => [[a]]
  | a :: b :: rest =>
    if a = ',' ∧ b = ' ' then [] :: splitCommaSpace rest
    else
      match splitCommaSpace (b :: rest) with
      | [] => [[a]]
      | g :: gs => (a :: g) :: gs

/-- Python `cell.replace('data/', '')` from `_process_crim_json_url`:
remove every (non-overlapping, left-to-right) occurrence of `"data/"`. -/
def stripDataSegs : List Char → List Char
  | 'd' :: 'a' :: 't' :: 'a' :: '/' :: rest => stripDataSegs rest
  | a :: rest => a :: stripDataSegs rest
  | [] => []

/-- Python `category.replace(".", "_")` used by `plot_comparison_heatmap`
on column names. -/
def dotToUnderscore (s : String) : String :=
  ⟨s.data.map fun ch => if ch = '.' then '_' else ch⟩

/-- Python `c.isdigit()` restricted to ASCII, as used on address parts. -/
def pyIsDigit (c : Char) : Bool :=
  48 ≤ c.toNat && c.toNat ≤ 57

/-- Value of a digit string, as computed by Python `int`. -/
def digitsToInt (l : List Char) : Int :=
  l.foldl (fun n c => 10 * n + ((c.toNat : Int) - 48)) 0

/-- The lambda `num: int(num) if num.isdigit() else pd.NA` from
`_from_ema_to_offsets`: coerce to an integer iff the string is non-empty
and purely numeric, otherwise mark invalid. -/
def coerceNum (s : String) : Option Int :=
  if s ≠ "" ∧ s.data.all pyIsDigit then some (digitsToInt s.data) else none

/-! ### Address parser (`_from_ema_to_offsets`) -/

/-- Embeds `df[ema_column].str.split("/", n=1, expand=True)[0]`: the part of an
address before any `/` qualifier. -/
def emaFirstSeg (s : String) : String :=
  (pySplit '/' s).headD ""

/-- Embeds `.str.split(",")` applied to the first segment: the comma-separated
ranges of an address. -/
def emaRanges (s : String) : List String :=
  pySplit ',' (emaFirstSeg s)

/-- Embeds `df.explode('locations', ignore_index=True)` over the ranges of each
address, keeping the original row identifier from `reset_index`. -/
def explodeLocations (df : List (Nat × String)) : List (Nat × String) :=
  df.flatMap fun r => (emaRanges r.2).map fun l => (r.1, l)

/-- Embeds `.str.split("-")` applied to one range. -/
def locParts (l : String) : List String :=
  pySplit '-' l

/-- Width of the frame produced by `.str.split("-", expand=True)`: the
maximal number of `-`-separated parts over all exploded rows. -/
def splitWidth (ex : List (Nat × String)) : Nat :=
  (ex.map fun r => (locParts r.2).length).foldr max 0

/-- Embeds `.fillna(method='ffill', axis=1)` on one row of the expanded split:
positions after the last part are filled with the last part. -/
def ffillTo (w : Nat) (parts : List String) : List String :=
  parts ++ List.replicate (w - parts.length) (parts.getLastD "")

/-- Embeds `_from_ema_to_offsets`, on the (row id, address) pairs of the frame.
The assignment `df[['start','end']] = df['locations'].str.split("-",
expand=True).fillna(method='ffill', axis=1)` requires the expanded frame
to have exactly two columns (pandas raises `ValueError: Columns must be
same length as key` otherwise), hence the `Option`. -/
def _from_ema_to_offsets (df : List (Nat × String)) :
    Option (List (Nat × Option Int × Option Int)) :=
  let ex := explodeLocations df
  if splitWidth ex = 2 then
    some (ex.map fun r =>
      let p := ffillTo 2 (locParts r.2)
      (r.1, coerceNum (p.headD ""), coerceNum (p.getD 1 "")))
  else none

/-- The printed invalid-rows diagnostic: the row identifiers of the rows
whose `start` or `end` is missing after parsing. -/
def invalidEmaRows (out : List (Nat × Option Int × Option Int)) : List Nat :=
  (out.filter fun r => r.2.1.isNone || r.2.2.isNone).map fun r => r.1

/-! ### N-gram reshaper (`_process_ngrams_df_helper`, `process_ngrams_df`) -/

/-- Embeds `reset_index().melt(id_vars=["start"], value_name=main_col,
var_name="voice")` over a wide table: the index becomes the `start`
column and the voice columns are stacked one after the other (pandas
melt is variable-major).  The cell type `α` is the melted property
(`pattern` strings or `duration` numbers). -/
def meltTable {α : Type} (index : List ℚ) (cols : List (String × List (Option α))) :
    List (ℚ × Option α × String) :=
  cols.flatMap fun c => (List.zip index c.2).map fun p => (p.1, p.2, c.1)

/-- One row of the processed long-form n-gram frame: columns
`start`, `pattern`, `voice`, `end` (in frame order). -/
structure ProcRow where
  start : ℚ
  pattern : Option String
  voice : String
  endv : Option ℚ
deriving DecidableEq, Repr

/-- Embeds `ngrams_df['end'] = ngrams_df['start'] + ngrams_duration['duration']`:
both melted frames carry a fresh range index, so pandas aligns them
position by position; a missing duration (or a missing position, when the
duration melt is shorter) leaves `end` missing. -/
def withDurEnd : List (ℚ × Option String × String) → List (ℚ × Option ℚ × String) →
    List ProcRow
  | [], _ => []
  | p :: ps, [] => ⟨p.1, p.2.1, p.2.2, none⟩ :: withDurEnd ps []
  | p :: ps, d :: ds => ⟨p.1, p.2.1, p.2.2, d.2.1.map fun q => p.1 + q⟩ :: withDurEnd ps ds

/-- Embeds `ngrams_df['end'] = ngrams_df['start'] + 1` (no duration table). -/
def noDurEnd (pm : List (ℚ × Option String × String)) : List ProcRow :=
  pm.map fun p => ⟨p.1, p.2.1, p.2.2, some (p.1 + 1)⟩

/-- Python truthiness of the optional list arguments (`if voices:`):
both `None` and the empty list are falsy. -/
def truthy (o : Option (List String)) : Bool :=
  match o with
  | none => false
  | some l => !l.isEmpty

/-- Embeds `dropna(how='all')` on the processed frame drops a row only if every
entry is missing; the `start` and `voice` columns of the melted frame are
never missing, so no row is all-missing. -/
def isAllNa (_r : ProcRow) : Bool :=
  false

/-- Embeds `if voices: ngrams_df = ngrams_df[ngrams_df['voice'].isin(voices)].dropna(how='all')`. -/
def voiceFilter (voices : Option (List String)) (rows : List ProcRow) : List ProcRow :=
  if truthy voices then
    (rows.filter fun r => (voices.getD []).contains r.voice).filter fun r => !isAllNa r
  else rows

/-- Embeds `if selected_pattern: ... ngrams_df['pattern'].isin(selected_pattern) ...`;
`isin` is false on a missing pattern. -/
def patternFilter (selected_pattern : Option (List String)) (rows : List ProcRow) :
    List ProcRow :=
  if truthy selected_pattern then
    (rows.filter fun r =>
      match r.pattern with
      | some p => (selected_pattern.getD []).contains p
      | none => false).filter fun r => !isAllNa r
  else rows

/-- Embeds `process_ngrams_df`.  A table is its (numeric) index together with its
named voice columns; the optional duration table comes with its own index
and columns. -/
def process_ngrams_df (index : List ℚ) (cols : List (String × List (Option String)))
    (ngrams_duration : Option (List ℚ × List (String × List (Option ℚ))))
    (selected_pattern voices : Option (List String)) : List ProcRow :=
  let pm := meltTable index cols
  let rows :=
    match ngrams_duration with
    | some d => withDurEnd pm (meltTable d.1 d.2)
    | none => noDurEnd pm
  patternFilter selected_pattern (voiceFilter voices rows)

/-- Embeds `dropna(how='any')` from `_plot_ngrams_df_heatmap` /
`plot_close_match_heatmap`: keep the rows with no missing entry. -/
def dropnaAny (rows : List ProcRow) : List ProcRow :=
  rows.filter fun r => r.pattern.isSome && r.endv.isSome

/-- The processed frame that `plot_ngrams_heatmap` hands to the renderer;
its `selected_patterns` and `voices` parameters default to `[]`. -/
def plot_ngrams_heatmap_data (index : List ℚ) (cols : List (String × List (Option String)))
    (ngrams_duration : Option (List ℚ × List (String × List (Option ℚ))))
    (selected_patterns voices : List String) : List ProcRow :=
  dropnaAny (process_ngrams_df index cols ngrams_duration (some selected_patterns) (some voices))

/-! ### Score matrix builder (`score_ngram`) -/

/-- Embeds `pd.Series(...).unique()` after `stack()`: the distinct cell values in
order of first appearance (`cells` lists the stacked, non-missing cells). -/
def uniqueAux : List String → List String → List String
  | _, [] => []
  | seen, a :: as =>
    if a ∈ seen then uniqueAux seen as else a :: uniqueAux (a :: seen) as

/-- The distinct patterns of the stacked table, first occurrences first. -/
def uniqueKeepFirst (l : List String) : List String :=
  uniqueAux [] l

/-- Embeds `tuple(cell.split(", "))`: the token tuple of a pattern string. -/
def tokens (s : String) : List String :=
  (splitCommaSpace s.data).map fun l => ⟨l⟩

/-- Embeds `", ".join(item for item in cell)`: back to string form. -/
def joinTokens (ts : List String) : String :=
  String.intercalate ", " ts

/-- Embeds `score_ngram`: the complete pairwise score table over the distinct
patterns, keyed by the (pattern, other) string pair in the
`MultiIndex.from_product` order (first component varies slowest), holding
`method` applied to the two token tuples. -/
def score_ngram {α : Type} (cells : List String) (method : List String → List String → α) :
    List ((String × String) × α) :=
  let uni := uniqueKeepFirst cells
  let ser := uni.map tokens
  ser.flatMap fun p => ser.map fun q => ((joinTokens p, joinTokens q), method p q)

/-! ### Relationship weights, normalizer, family grouper, graph builder -/

/-- The module-level `RELATIONSHIP_WEIGHTS` table. -/
def RELATIONSHIP_WEIGHTS : List (String × Int) :=
  [("Quotation", 1),
   ("Mechanical transformation", 2),
   ("Non-mechanical transformation", 3),
   ("New material", 4),
   ("Omission", 5),
   ("Quotation, Mechanical transformation", 6),
   ("Quotation, Non-mechanical transformation", 7),
   ("Non-mechanical transformation, Omission", 8),
   ("Mechanical transformation, Non-mechanical transformation", 9),
   ("Quotation, New material", 10),
   ("Quotation, Mechanical transformation, Non-mechanical transformation", 11)]

/-- Python `dict` lookup (`weights_dict`): first (here: only) binding of
the key, if any. -/
def lookupWeight (t : String) : List (String × Int) → Option Int
  | [] => none
  | (k, w) :: rest => if t = k then some w else lookupWeight t rest

/-- Embeds `df['relationship_type'].map(weights_dict, na_action='ignore')`
followed by `df['weight'].fillna(0, inplace=True)` and the `int(...)`
cast at `add_edge`: the edge weight for one relationship-type string. -/
def weightOf (t : String) : Int :=
  (lookupWeight t RELATIONSHIP_WEIGHTS).getD 0

/-- One row of the relationships frame, restricted to the columns that
`_trim_and_combine_piece_ids_with_measures` extracts. -/
structure RelRow where
  model_ema : String
  model_piece : String
  rel_type : String
  deriv_piece : String
  deriv_ema : String
deriving DecidableEq, Repr

/-- The combined `model` key column, `piece_id + ":" + first ema segment`. -/
def modelKey (r : RelRow) : String :=
  r.model_piece ++ ":" ++ emaFirstSeg r.model_ema

/-- The combined `derivative` key. -/
def derivKey (r : RelRow) : String :=
  r.deriv_piece ++ ":" ++ emaFirstSeg r.deriv_ema

/-- Embeds `x.split(":")[0]`: the root key (piece-id portion) of a combined id. -/
def pieceRoot (s : String) : String :=
  (pySplit ':' s).headD ""

/-- One union step of `group_observations` for the row `(x, y)`: look up
(or default to singletons) the groups of the two root keys, union them,
and store the union under every root key represented in it. -/
def groupStep (g : String → Option (Finset String)) (x y : String) :
    String → Option (Finset String) :=
  let xset := (g (pieceRoot x)).getD {x}
  let yset := (g (pieceRoot y)).getD {y}
  let jset := xset ∪ yset
  fun r => if r ∈ jset.image pieceRoot then some jset else g r

/-- The unioned set `jset` written back by one `group_observations` step. -/
def stepSets (g : String → Option (Finset String)) (x y : String) : Finset String :=
  (g (pieceRoot x)).getD {x} ∪ (g (pieceRoot y)).getD {y}

/-- Embeds `group_observations` over the row-aligned model/derivative id pairs:
the mapping from root keys to groups after a full pass. -/
def group_observations (rows : List (String × String)) :
    String → Option (Finset String) :=
  rows.foldl (fun g p => groupStep g p.1 p.2) fun _ => none

/-- The ids occurring (as model or derivative) in the rows. -/
def idsIn (rows : List (String × String)) : List String :=
  rows.flatMap fun p => [p.1, p.2]

/-- Two ids share a pair (in either orientation) in the rows. -/
def pairMem (rows : List (String × String)) (a b : String) : Prop :=
  (a, b) ∈ rows ∨ (b, a) ∈ rows

/-- Transitive reachability via shared pairs. -/
def Reaches (rows : List (String × String)) : String → String → Prop :=
  Relation.ReflTransGen (pairMem rows)

/-- The three independent equality filters of `plot_relationship_network`
(relationship type, model piece id, derivative piece id); an empty
selector list is falsy and applies no filter.  `dropna(how='all')` after
each filter is the identity here since no extracted column is missing. -/
def relFiltered (df : List RelRow)
    (selTypes selModels selDerivs : List String) : List RelRow :=
  let df := if !selTypes.isEmpty then df.filter fun r => selTypes.contains r.rel_type else df
  let df := if !selModels.isEmpty then df.filter fun r => selModels.contains r.model_piece else df
  if !selDerivs.isEmpty then df.filter fun r => selDerivs.contains r.deriv_piece else df

/-- The family filter: union the groups of the selected family members
that are still present (absent members are only reported), then keep the
rows whose model or derivative id lies in the union. -/
def famFiltered (df : List RelRow) (selFams : List String) : List RelRow :=
  if selFams.isEmpty then df
  else
    let fams := group_observations (df.map fun r => (modelKey r, derivKey r))
    let relatives := selFams.foldl
      (fun acc m => match fams m with | some s => acc ∪ s | none => acc)
      (∅ : Finset String)
    df.filter fun r => decide (modelKey r ∈ relatives) || decide (derivKey r ∈ relatives)

/-- The directed (multi-)graph produced by `plot_relationship_network`:
node list (id, optional group attribute), edge list
(source, target, integer weight, relationship-type title), and the
`inherit_edge_colors` directive. -/
structure NetGraph where
  nodes : List (String × Option String)
  edges : List (String × String × Int × String)
  inheritDir : String
deriving DecidableEq, Repr

/-- pyvis `Network.add_node`: a node id already present is not re-added
(and its attributes are not updated). -/
def addNode (nodes : List (String × Option String)) (n : String × Option String) :
    List (String × Option String) :=
  if (nodes.map Prod.fst).contains n.1 then nodes else nodes ++ [n]

/-- Build the network: plain nodes from the `normal` column, then nodes
from the `colored` column carrying their relationship type as group, then
one edge `model → derivative` per row with the looked-up weight. -/
def buildNet (df : List RelRow) (normal colored : RelRow → String) (inh : String) :
    NetGraph :=
  let nodes := df.foldl (fun ns r => addNode ns (normal r, none)) []
  let nodes := df.foldl (fun ns r => addNode ns (colored r, some r.rel_type)) nodes
  { nodes := nodes
    edges := df.map fun r => (modelKey r, derivKey r, weightOf r.rel_type, r.rel_type)
    inheritDir := inh }

/-- Embeds `plot_relationship_network`: trim/combine, filter, compute weights,
then dispatch on the `color` mode; any other `color` raises. -/
def plot_relationship_network (df : List RelRow) (color : String)
    (selTypes selModels selDerivs selFams : List String) : Except String NetGraph :=
  let rows := famFiltered (relFiltered df selTypes selModels selDerivs) selFams
  if color = "derivative" then .ok (buildNet rows modelKey derivKey "to")
  else if color = "model" then .ok (buildNet rows derivKey modelKey "from")
  else .error "Invalid input for color, please put derivative or model."

/-- Embeds `score_df.loc[key_pattern, cell]`: lookup in the multi-indexed score
series; a missing key raises `KeyError`. -/
def lookupScore (score_df : List ((String × String) × ℚ)) (k : String × String) : Option ℚ :=
  match score_df.find? fun e => e.1 = k with
  | some e => some e.2
  | none => none

/-- The chart data of `plot_close_match_heatmap`: the scored rows and the
color sort direction chosen by the compare mode. -/
structure CloseMatchChart where
  rows : List (ProcRow × ℚ)
  sortDir : String
deriving DecidableEq, Repr

/-- Embeds `plot_close_match_heatmap`: process the n-grams, map every pattern to
its score against `key_pattern` (raising `KeyError` on a missing pair),
then dispatch on `compare`; any value other than `'d'`/`'s'` raises. -/
def plot_close_match_heatmap (index : List ℚ) (cols : List (String × List (Option String)))
    (key_pattern : String) (score_df : List ((String × String) × ℚ)) (compare : String)
    (ngrams_duration : Option (List ℚ × List (String × List (Option ℚ))))
    (selected_patterns voices : List String) : Except String CloseMatchChart :=
  let ngrams := dropnaAny
    (process_ngrams_df index cols ngrams_duration (some selected_patterns) (some voices))
  match ngrams.mapM fun r =>
      (lookupScore score_df (key_pattern, r.pattern.getD "")).map fun s => (r, s) with
  | none => .error "KeyError"
  | some scored =>
    if compare = "d" then .ok { rows := scored, sortDir := "descending" }
    else if compare = "s" then .ok { rows := scored, sortDir := "ascending" }
    else .error "Please input d for distance and s for similarity!"

/-! ### Heap model for the defensive-copy (no-mutation) property

Python dataframes are heap objects; in-place pandas operations are writes
to a cell, `df.copy()` / frame-producing operations allocate fresh cells.
The stateful embeddings below mirror, call by call, which object each
operation of the source targets. -/

/-- A heap of dataframe objects of content type `α`: `cells` maps every
reference to a content, `next` is the next fresh reference. -/
structure Heap (α : Type) where
  cells : Nat → α
  next : Nat

/-- Read the object behind a reference. -/
def Heap.read {α : Type} (h : Heap α) (r : Nat) : α :=
  h.cells r

/-- Allocate a fresh object (e.g. `df.copy()`, or a pandas call returning
a new frame that is later mutated). -/
def Heap.alloc {α : Type} (h : Heap α) (v : α) : Nat × Heap α :=
  (h.next, ⟨Function.update h.cells h.next v, h.next + 1⟩)

/-- Overwrite the object behind a reference (an in-place operation). -/
def Heap.write {α : Type} (h : Heap α) (r : Nat) (v : α) : Heap α :=
  ⟨Function.update h.cells r v, h.next⟩

/-- A wide n-gram table object: its (mutable) index name, its index and
its voice columns of cells of type `α`. -/
structure TableS (α : Type) where
  indexName : Option String
  index : List ℚ
  cols : List (String × List (Option α))

/-- Stateful `process_ngrams_df`: `_process_ngrams_df_helper` copies each
input table (`ngrams_df = ngrams_df.copy()`) and sets the index name on
the copy (`ngrams_df.index.name = "start"`, an in-place write); all other
steps rebind the local name to freshly built frames.  The pattern table
and the optional duration table live in separate typed heaps. -/
def process_ngrams_dfS (r : Nat) (rdur : Option Nat)
    (selected_pattern voices : Option (List String))
    (hp : Heap (TableS String)) (hd : Heap (TableS ℚ)) :
    List ProcRow × Heap (TableS String) × Heap (TableS ℚ) :=
  let t := hp.read r
  let (cp, hp) := hp.alloc t
  let hp := hp.write cp { hp.read cp with indexName := some "start" }
  match rdur with
  | some rd =>
    let td := hd.read rd
    let (cd, hd) := hd.alloc td
    let hd := hd.write cd { hd.read cd with indexName := some "start" }
    (process_ngrams_df t.index t.cols (some (td.index, td.cols)) selected_pattern voices,
     hp, hd)
  | none =>
    (process_ngrams_df t.index t.cols none selected_pattern voices, hp, hd)

/-- One row of an observations/relationships frame as consumed by
`plot_comparison_heatmap` (its ema address, url, id and the two category
cells). -/
structure ObsRow where
  ema : String
  url : String
  idv : Int
  mainCat : String
  otherCat : String

/-- An observations frame object: its rows keyed by index label, plus the
columns the function assigns along the way. -/
structure ObsDF where
  rows : List (Nat × ObsRow)
  locations : Option (List (List String))
  startEnd : Option (List (Option Int × Option Int))
  websiteUrl : Option (List String)
  idStr : Option (List String)
  mainColName : String
  otherColName : String

/-- Stateful `plot_comparison_heatmap` (its data pipeline): copy the
caller frame, run `_from_ema_to_offsets` on the copy (which mutates the
copy in place — `reset_index(inplace=True)`, the `locations` column
assignment — then rebinds to the freshly allocated exploded frame and
mutates that), then assign `website_url`/`id` and rename the category
columns on the result frame.  Returns the final frame contents (the chart
is rendered from them) and the heap. -/
def plot_comparison_heatmapS (r : Nat) (main_category other_category : String)
    (h : Heap ObsDF) : Except String ObsDF × Heap ObsDF :=
  let (cpy, h) := h.alloc (h.read r)
  let d := h.read cpy
  let h := h.write cpy { d with locations := some (d.rows.map fun p => emaRanges p.2.ema) }
  let ex := d.rows.flatMap fun p => (emaRanges p.2.ema).map fun l => ((p.1, p.2), l)
  let (c2, h) := h.alloc
    { rows := ex.map fun q => q.1
      locations := some (ex.map fun q => [q.2])
      startEnd := none, websiteUrl := none, idStr := none
      mainColName := main_category, otherColName := other_category }
  match _from_ema_to_offsets (d.rows.map fun p => (p.1, p.2.ema)) with
  | none => (.error "ValueError: Columns must be same length as key", h)
  | some out =>
    let h := h.write c2 { h.read c2 with startEnd := some (out.map fun o => o.2) }
    let h := h.write c2 { h.read c2 with
      websiteUrl := some ((h.read c2).rows.map fun p => ⟨stripDataSegs p.2.url.data⟩) }
    let h := h.write c2 { h.read c2 with
      idStr := some ((h.read c2).rows.map fun p => toString p.2.idv) }
    let h := h.write c2 { h.read c2 with
      mainColName := dotToUnderscore main_category
      otherColName := dotToUnderscore other_category }
    (.ok (h.read c2), h)

/-- A relationships frame object: the extracted rows plus the derived
columns `model`, `derivative` and `weight` once assigned. -/
structure RelDF where
  rows : List RelRow
  modelCol : Option (List String)
  derivCol : Option (List String)
  weights : Option (List Int)

/-- Embeds `_trim_and_combine_piece_ids_with_measures` on one row: the two ema
columns are overwritten with their first segment. -/
def trimRow (r : RelRow) : RelRow :=
  { r with model_ema := emaFirstSeg r.model_ema, deriv_ema := emaFirstSeg r.deriv_ema }

/-- Stateful `plot_relationship_network`: `_trim_and_combine...` selects
columns and copies (`df[[...]].copy()`), then the ema trims and the
`model`/`derivative` column assignments mutate the copy; the filters
rebind to fresh frames; `df['weight'] = ...` mutates whichever frame the
local name holds (the last filter result, or the trim copy when no filter
ran).  The returned network is the pure `plot_relationship_network`. -/
def plot_relationship_networkS (r : Nat) (color : String)
    (selTypes selModels selDerivs selFams : List String) (h : Heap RelDF) :
    Except String NetGraph × Heap RelDF :=
  let d := h.read r
  let (c, h) := h.alloc { rows := d.rows, modelCol := none, derivCol := none, weights := none }
  let h := h.write c { h.read c with rows := (h.read c).rows.map trimRow }
  let h := h.write c { h.read c with
    modelCol := some ((h.read c).rows.map modelKey)
    derivCol := some ((h.read c).rows.map derivKey) }
  let rows1 := relFiltered (h.read c).rows selTypes selModels selDerivs
  let rows2 := famFiltered rows1 selFams
  let anyFilter := !selTypes.isEmpty || !selModels.isEmpty || !selDerivs.isEmpty
    || !selFams.isEmpty
  let (tgt, h) :=
    if anyFilter then
      h.alloc { rows := rows2, modelCol := some (rows2.map modelKey)
                derivCol := some (rows2.map derivKey), weights := none }
    else (c, h)
  let h := h.write tgt { h.read tgt with weights := some (rows2.map fun w => weightOf w.rel_type) }
  (plot_relationship_network d.rows color selTypes selModels selDerivs selFams, h)

/-- The invariant of the `group_observations` fold, after processing the
prefix `done` of the full row list `L`:
* members of stored groups are ids seen in `done`;
* every stored key is the root of one of its group members;
* every member root of a stored group points to that same group;
* any two members of a stored group are connected via shared pairs;
* both ids of a processed pair lie in one common stored group. -/
structure GroupInv (L done : List (String × String))
    (g : String → Option (Finset String)) : Prop where
  mem_ids : ∀ r S, g r = some S → ∀ z ∈ S, z ∈ idsIn done
  key_root : ∀ r S, g r = some S → ∃ z ∈ S, pieceRoot z = r
  coherent : ∀ r S, g r = some S → ∀ z ∈ S, g (pieceRoot z) = some S
  sound : ∀ r S, g r = some S → ∀ z ∈ S, ∀ w ∈ S, Reaches L z w
  complete : ∀ a b, (a, b) ∈ done → ∃ S, g (pieceRoot a) = some S ∧ a ∈ S ∧ b ∈ S

/-! ## Theorems -/

theorem idsIn_append (l₁ l₂ : List (String × String)) :
    idsIn (l₁ ++ l₂) = idsIn l₁ ++ idsIn l₂ := by
  simp [idsIn]

theorem mem_idsIn_of_pair {rows : List (String × String)} {a b : String}
    (h : (a, b) ∈ rows) : a ∈ idsIn rows ∧ b ∈ idsIn rows := by
  constructor <;> exact List.mem_flatMap.2 ⟨(a, b), h, by simp⟩

theorem groupStep_apply (g : String → Option (Finset String)) (x y r : String) :
    groupStep g x y r =
      if r ∈ ((g (pieceRoot x)).getD {x} ∪ (g (pieceRoot y)).getD {y}).image pieceRoot
      then some ((g (pieceRoot x)).getD {x} ∪ (g (pieceRoot y)).getD {y})
      else g r := rfl

theorem getD_mem_self {L done : List (String × String)}
    {g : String → Option (Finset String)} (hg : GroupInv L done g)
    (hinj : ∀ a ∈ idsIn L, ∀ b ∈ idsIn L, pieceRoot a = pieceRoot b → a = b)
    (hsub : ∀ z ∈ idsIn done, z ∈ idsIn L) {a : String} (ha : a ∈ idsIn L) :
    a ∈ (g (pieceRoot a)).getD {a} := by
  cases h : g (pieceRoot a) with
  | none => simp
  | some T =>
    obtain ⟨z, hzT, hzr⟩ := hg.key_root _ _ h
    have hzL : z ∈ idsIn L := hsub _ (hg.mem_ids _ _ h z hzT)
    have : z = a := hinj z hzL a ha hzr
    simpa [this] using hzT

theorem getD_mem_done_or_eq {L done : List (String × String)}
    {g : String → Option (Finset String)} (hg : GroupInv L done g) {a z : String}
    (hz : z ∈ (g (pieceRoot a)).getD {a}) : z ∈ idsIn done ∨ z = a := by
  cases h : g (pieceRoot a) with
  | none => right; simpa [h] using hz
  | some T => left; exact hg.mem_ids _ _ h z (by simpa [h] using hz)

theorem getD_sound {L done : List (String × String)}
    {g : String → Option (Finset String)} (hg : GroupInv L done g) {a z w : String}
    (hz : z ∈ (g (pieceRoot a)).getD {a}) (hw : w ∈ (g (pieceRoot a)).getD {a}) :
    Reaches L z w := by
  cases h : g (pieceRoot a) with
  | none =>
    have hz' : z = a := by simpa [h] using hz
    have hw' : w = a := by simpa [h] using hw
    rw [hz', hw']
    exact Relation.ReflTransGen.refl
  | some T =>
    exact hg.sound _ _ h z (by simpa [h] using hz) w (by simpa [h] using hw)

theorem getD_unique {L done : List (String × String)}
    {g : String → Option (Finset String)} (hg : GroupInv L done g) {a z : String}
    (hz : z ∈ (g (pieceRoot a)).getD {a}) {S : Finset String}
    (hS : g (pieceRoot z) = some S) : S = (g (pieceRoot a)).getD {a} := by
  cases h : g (pieceRoot a) with
  | none =>
    have hz' : z = a := by simpa [h] using hz
    rw [hz'] at hS
    rw [h] at hS
    exact absurd hS (by simp)
  | some T =>
    have hzT : z ∈ T := by simpa [h] using hz
    have := hg.coherent _ _ h z hzT
    rw [this] at hS
    simpa using hS.symm

theorem groupStep_apply_sets (g : String → Option (Finset String)) (x y r : String) :
    groupStep g x y r =
      if r ∈ (stepSets g x y).image pieceRoot then some (stepSets g x y) else g r := rfl

theorem groupStep_preserves {L done rest : List (String × String)} {x y : String}
    (hL : L = done ++ (x, y) :: rest)
    (hinj : ∀ a ∈ idsIn L, ∀ b ∈ idsIn L, pieceRoot a = pieceRoot b → a = b)
    {g : String → Option (Finset String)} (hg : GroupInv L done g) :
    GroupInv L (done ++ [(x, y)]) (groupStep g x y) := by
  have hsub : ∀ z ∈ idsIn done, z ∈ idsIn L := by
    intro z hz
    rw [hL, idsIn_append]
    exact List.mem_append_left _ hz
  have hxyL : (x, y) ∈ L := by rw [hL]; simp
  have hxL : x ∈ idsIn L := (mem_idsIn_of_pair hxyL).1
  have hyL : y ∈ idsIn L := (mem_idsIn_of_pair hxyL).2
  have hx_xs : x ∈ (g (pieceRoot x)).getD {x} := getD_mem_self hg hinj hsub hxL
  have hy_ys : y ∈ (g (pieceRoot y)).getD {y} := getD_mem_self hg hinj hsub hyL
  have hx_js : x ∈ stepSets g x y := Finset.mem_union_left _ hx_xs
  have hy_js : y ∈ stepSets g x y := Finset.mem_union_right _ hy_ys
  have hjs_done : ∀ z ∈ stepSets g x y, z ∈ idsIn (done ++ [(x, y)]) := by
    intro z hz
    rw [idsIn_append]
    rcases Finset.mem_union.1 hz with h | h
    · rcases getD_mem_done_or_eq hg h with h' | h'
      · exact List.mem_append_left _ h'
      · subst h'; exact List.mem_append_right _ (by simp [idsIn])
    · rcases getD_mem_done_or_eq hg h with h' | h'
      · exact List.mem_append_left _ h'
      · subst h'; exact List.mem_append_right _ (by simp [idsIn])
  have hjs_L : ∀ z ∈ stepSets g x y, z ∈ idsIn L := by
    intro z hz
    rcases Finset.mem_union.1 hz with h | h
    · rcases getD_mem_done_or_eq hg h with h' | h'
      · exact hsub _ h'
      · subst h'; exact hxL
    · rcases getD_mem_done_or_eq hg h with h' | h'
      · exact hsub _ h'
      · subst h'; exact hyL
  have hroot_mem : ∀ z, z ∈ idsIn L →
      pieceRoot z ∈ (stepSets g x y).image pieceRoot → z ∈ stepSets g x y := by
    intro z hzL hz
    obtain ⟨u, hu, huz⟩ := Finset.mem_image.1 hz
    have : u = z := hinj u (hjs_L u hu) z hzL huz
    rwa [this] at hu
  have hset_sub : ∀ r S, g r = some S → ∀ z ∈ S, z ∈ stepSets g x y →
      S ⊆ stepSets g x y := by
    intro r S hS z hzS hzjs
    have hcoh := hg.coherent _ _ hS z hzS
    rcases Finset.mem_union.1 hzjs with h | h
    · rw [getD_unique hg h hcoh]
      exact Finset.subset_union_left
    · rw [getD_unique hg h hcoh]
      exact Finset.subset_union_right
  refine ⟨?_, ?_, ?_, ?_, ?_⟩
  · -- mem_ids
    intro r S hS z hz
    rw [groupStep_apply_sets] at hS
    by_cases hr : r ∈ (stepSets g x y).image pieceRoot
    · rw [if_pos hr] at hS
      have : stepSets g x y = S := Option.some.inj hS
      exact hjs_done z (this ▸ hz)
    · rw [if_neg hr] at hS
      rw [idsIn_append]
      exact List.mem_append_left _ (hg.mem_ids _ _ hS z hz)
  · -- key_root
    intro r S hS
    rw [groupStep_apply_sets] at hS
    by_cases hr : r ∈ (stepSets g x y).image pieceRoot
    · rw [if_pos hr] at hS
      have hSeq : stepSets g x y = S := Option.some.inj hS
      obtain ⟨z, hz, hroot⟩ := Finset.mem_image.1 hr
      exact ⟨z, hSeq ▸ hz, hroot⟩
    · rw [if_neg hr] at hS
      exact hg.key_root _ _ hS
  · -- coherent
    intro r S hS z hz
    rw [groupStep_apply_sets] at hS
    by_cases hr : r ∈ (stepSets g x y).image pieceRoot
    · rw [if_pos hr] at hS
      have hSeq : stepSets g x y = S := Option.some.inj hS
      rw [groupStep_apply_sets, if_pos (Finset.mem_image_of_mem pieceRoot (hSeq ▸ hz))]
      rw [hSeq]
    · rw [if_neg hr] at hS
      by_cases hz' : pieceRoot z ∈ (stepSets g x y).image pieceRoot
      · exfalso
        have hzL : z ∈ idsIn L := hsub _ (hg.mem_ids _ _ hS z hz)
        have hzjs : z ∈ stepSets g x y := hroot_mem z hzL hz'
        obtain ⟨w, hwS, hwr⟩ := hg.key_root _ _ hS
        have : w ∈ stepSets g x y := hset_sub _ _ hS z hz hzjs hwS
        exact hr (hwr ▸ Finset.mem_image_of_mem pieceRoot this)
      · rw [groupStep_apply_sets, if_neg hz']
        exact hg.coherent _ _ hS z hz
  · -- sound
    intro r S hS z hz w hw
    rw [groupStep_apply_sets] at hS
    by_cases hr : r ∈ (stepSets g x y).image pieceRoot
    · rw [if_pos hr] at hS
      have hSeq : stepSets g x y = S := Option.some.inj hS
      rw [← hSeq] at hz hw
      have hstep : Reaches L x y := Relation.ReflTransGen.single (Or.inl hxyL)
      have hstep' : Reaches L y x := Relation.ReflTransGen.single (Or.inr hxyL)
      rcases Finset.mem_union.1 hz with h1 | h1 <;> rcases Finset.mem_union.1 hw with h2 | h2
      · exact getD_sound hg h1 h2
      · exact Relation.ReflTransGen.trans (getD_sound hg h1 hx_xs)
          (Relation.ReflTransGen.trans hstep (getD_sound hg hy_ys h2))
      · exact Relation.ReflTransGen.trans (getD_sound hg h1 hy_ys)
          (Relation.ReflTransGen.trans hstep' (getD_sound hg hx_xs h2))
      · exact getD_sound hg h1 h2
    · rw [if_neg hr] at hS
      exact hg.sound _ _ hS z hz w hw
  · -- complete
    intro a b hab
    rcases List.mem_append.1 hab with hab | hab
    · obtain ⟨S, hgS, haS, hbS⟩ := hg.complete a b hab
      by_cases hra : pieceRoot a ∈ (stepSets g x y).image pieceRoot
      · have haL : a ∈ idsIn L := hsub _ (hg.mem_ids _ _ hgS a haS)
        have hajs : a ∈ stepSets g x y := hroot_mem a haL hra
        have hSsub : S ⊆ stepSets g x y := hset_sub _ _ hgS a haS hajs
        refine ⟨stepSets g x y, ?_, hajs, hSsub hbS⟩
        rw [groupStep_apply_sets, if_pos hra]
      · refine ⟨S, ?_, haS, hbS⟩
        rw [groupStep_apply_sets, if_neg hra]
        exact hgS
    · have h1 : (a, b) = (x, y) := by simpa using hab
      have ha : a = x := congrArg Prod.fst h1
      have hb : b = y := congrArg Prod.snd h1
      subst ha
      subst hb
      refine ⟨stepSets g a b, ?_, hx_js, hy_js⟩
      rw [groupStep_apply_sets, if_pos (Finset.mem_image_of_mem pieceRoot hx_js)]

theorem groupInv_nil (L : List (String × String)) :
    GroupInv L [] fun _ => none := by
  refine ⟨?_, ?_, ?_, ?_, ?_⟩ <;> intro _ _ h <;> simp_all

theorem group_observations_foldl_inv
    (L : List (String × String))
    (hinj : ∀ a ∈ idsIn L, ∀ b ∈ idsIn L, pieceRoot a = pieceRoot b → a = b) :
    ∀ (rest done : List (String × String)) (g : String → Option (Finset String)),
      L = done ++ rest → GroupInv L done g →
      GroupInv L L (rest.foldl (fun g p => groupStep g p.1 p.2) g) := by
  intro rest
  induction rest with
  | nil =>
    intro done g hL hg
    simp only [List.foldl_nil]
    have : done = L := by rw [hL, List.append_nil]
    rwa [this] at hg
  | cons p rest ih =>
    intro done g hL hg
    obtain ⟨x, y⟩ := p
    simp only [List.foldl_cons]
    exact ih (done ++ [(x, y)]) (groupStep g x y)
      (by rw [hL, List.append_assoc]; rfl)
      (groupStep_preserves hL hinj hg)

theorem group_observations_inv (L : List (String × String))
    (hinj : ∀ a ∈ idsIn L, ∀ b ∈ idsIn L, pieceRoot a = pieceRoot b → a = b) :
    GroupInv L L (group_observations L) :=
  group_observations_foldl_inv L hinj L [] _ rfl (groupInv_nil L)

/-- C1 (amended): for `group_observations`, given parallel, row-aligned
series of model ids and derivative ids in which distinct ids never share
a root key (the piece-id before the colon), after a full pass over all
rows the returned mapping gives, for every id seen (under its root key),
the set of all ids transitively reachable via shared pairs. -/
theorem group_observations_family_groups (rows : List (String × String))
    (hinj : ∀ a ∈ idsIn rows, ∀ b ∈ idsIn rows, pieceRoot a = pieceRoot b → a = b) :
    ∀ x ∈ idsIn rows, ∃ S : Finset String,
      group_observations rows (pieceRoot x) = some S ∧
      ∀ b, b ∈ S ↔ b ∈ idsIn rows ∧ Reaches rows x b := by
  intro x hx
  have hg := group_observations_inv rows hinj
  obtain ⟨p, hp, hxp⟩ := List.mem_flatMap.1 hx
  obtain ⟨a, b⟩ := p
  obtain ⟨S, hS, haS, hbS⟩ := hg.complete a b hp
  have hxSex : ∃ S, group_observations rows (pieceRoot x) = some S ∧ x ∈ S := by
    rcases (by simpa using hxp : x = a ∨ x = b) with rfl | rfl
    · exact ⟨S, hS, haS⟩
    · exact ⟨S, hg.coherent _ _ hS _ hbS, hbS⟩
  clear hS haS hbS hp
  obtain ⟨S, hS, hxS⟩ := hxSex
  refine ⟨S, hS, fun c => ⟨?_, ?_⟩⟩
  · intro hc
    exact ⟨hg.mem_ids _ _ hS c hc, hg.sound _ _ hS x hxS c hc⟩
  · rintro ⟨hcIds, hreach⟩
    clear hcIds
    induction hreach with
    | refl => exact hxS
    | tail _ hstep ih =>
      rcases hstep with hcb | hcb
      · obtain ⟨T, hT, hmT, hbT⟩ := hg.complete _ _ hcb
        have hco := hg.coherent _ _ hS _ ih
        rw [hco] at hT
        rw [← Option.some.inj hT] at hbT
        exact hbT
      · obtain ⟨T, hT, hbT, hmT⟩ := hg.complete _ _ hcb
        have h2 := hg.coherent _ _ hT _ hmT
        have h3 := hg.coherent _ _ hS _ ih
        rw [h3] at h2
        rw [← Option.some.inj h2] at hbT
        exact hbT

theorem group_observations_family_groups_witness :
    (∀ a ∈ idsIn [("P1:1-2", "P2:3-4"), ("P2:3-4", "P3:5-6")],
       ∀ b ∈ idsIn [("P1:1-2", "P2:3-4"), ("P2:3-4", "P3:5-6")],
       pieceRoot a = pieceRoot b → a = b) ∧
    ∃ S : Finset String,
      group_observations [("P1:1-2", "P2:3-4"), ("P2:3-4", "P3:5-6")]
          (pieceRoot "P1:1-2") = some S ∧
        "P3:5-6" ∈ S := by
  refine ⟨by decide, ?_⟩
  obtain ⟨S, hS, hiff⟩ :=
    group_observations_family_groups [("P1:1-2", "P2:3-4"), ("P2:3-4", "P3:5-6")]
      (by decide) "P1:1-2" (by decide)
  refine ⟨S, hS, (hiff "P3:5-6").2 ⟨by decide, ?_⟩⟩
  have h1 : Reaches [("P1:1-2", "P2:3-4"), ("P2:3-4", "P3:5-6")] "P1:1-2" "P2:3-4" :=
    Relation.ReflTransGen.single (Or.inl (by decide))
  have h2 : pairMem [("P1:1-2", "P2:3-4"), ("P2:3-4", "P3:5-6")] "P2:3-4" "P3:5-6" :=
    Or.inl (by decide)
  exact Relation.ReflTransGen.tail h1 h2

/-- C1 counterexample: with rows (P1:1, P2:1) and (P1:2, P3:1), the id
P1:2 is seen, but the group stored under its root key P1 is
{P1:1, P2:1, P3:1}, which does not even contain P1:2 — so the mapping
does not give, for every id seen, its set of transitively reachable ids. -/
theorem group_observations_claim_counterexample :
    ¬ (∀ x ∈ idsIn [("P1:1", "P2:1"), ("P1:2", "P3:1")],
        ∃ S : Finset String,
          group_observations [("P1:1", "P2:1"), ("P1:2", "P3:1")] (pieceRoot x) =
            some S ∧
          ∀ b, b ∈ S ↔
            b ∈ idsIn [("P1:1", "P2:1"), ("P1:2", "P3:1")] ∧
            Reaches [("P1:1", "P2:1"), ("P1:2", "P3:1")] x b) := by
  intro h
  obtain ⟨S, hS, hiff⟩ := h "P1:2" (by decide)
  have hmem : "P1:2" ∈ S :=
    (hiff "P1:2").2 ⟨by decide, Relation.ReflTransGen.refl⟩
  have hval : group_observations [("P1:1", "P2:1"), ("P1:2", "P3:1")] (pieceRoot "P1:2") =
      some ({"P1:1", "P2:1", "P3:1"} : Finset String) := by decide
  rw [hS] at hval
  rw [Option.some.inj hval] at hmem
  exact absurd hmem (by decide)

theorem digitsToInt_foldl_nonneg (l : List Char) (hl : ∀ c ∈ l, pyIsDigit c = true) :
    ∀ a : Int, 0 ≤ a → 0 ≤ l.foldl (fun n c => 10 * n + ((c.toNat : Int) - 48)) a := by
  induction l with
  | nil => intro a ha; simpa using ha
  | cons c l ih =>
    intro a ha
    simp only [List.foldl_cons]
    refine ih (fun d hd => hl d (List.mem_cons_of_mem _ hd)) _ ?_
    have hc := hl c (List.mem_cons_self c l)
    simp only [pyIsDigit, Bool.and_eq_true, decide_eq_true_eq] at hc
    have h48 : (48 : Int) ≤ (c.toNat : Int) := by exact_mod_cast hc.1
    omega

theorem coerceNum_nonneg {s : String} {n : Int} (h : coerceNum s = some n) : 0 ≤ n := by
  simp only [coerceNum] at h
  split_ifs at h with hc
  rw [← Option.some.inj h]
  refine digitsToInt_foldl_nonneg s.data ?_ 0 le_rfl
  intro c hcmem
  exact List.all_eq_true.1 hc.2 c hcmem

theorem from_ema_to_offsets_eq {df : List (Nat × String)}
    {out : List (Nat × Option Int × Option Int)}
    (h : _from_ema_to_offsets df = some out) :
    out = (explodeLocations df).map fun r =>
      (r.1, coerceNum ((ffillTo 2 (locParts r.2)).headD ""),
        coerceNum ((ffillTo 2 (locParts r.2)).getD 1 "")) := by
  simp only [_from_ema_to_offsets] at h
  split_ifs at h
  exact (Option.some.inj h).symm

/-- C2 (amended): for every address string processed by the address parser
(`_from_ema_to_offsets`), each produced (start, end) row has each of its
two values independently either a non-negative integer or marked invalid
(null); `start ≤ end` is not guaranteed, and a row may have exactly one
invalid value. -/
theorem from_ema_to_offsets_values (df : List (Nat × String))
    (out : List (Nat × Option Int × Option Int))
    (h : _from_ema_to_offsets df = some out) :
    ∀ r ∈ out,
      (r.2.1 = none ∨ ∃ n : Int, r.2.1 = some n ∧ 0 ≤ n) ∧
      (r.2.2 = none ∨ ∃ n : Int, r.2.2 = some n ∧ 0 ≤ n) := by
  intro r hr
  rw [from_ema_to_offsets_eq h] at hr
  obtain ⟨e, _he, rfl⟩ := List.mem_map.1 hr
  constructor
  · cases hc : coerceNum ((ffillTo 2 (locParts e.2)).headD "") with
    | none => exact Or.inl rfl
    | some n => exact Or.inr ⟨n, rfl, coerceNum_nonneg hc⟩
  · cases hc : coerceNum ((ffillTo 2 (locParts e.2)).getD 1 "") with
    | none => exact Or.inl rfl
    | some n => exact Or.inr ⟨n, rfl, coerceNum_nonneg hc⟩

theorem from_ema_to_offsets_values_witness :
    _from_ema_to_offsets [(0, "3-5")] = some [(0, some 3, some 5)] ∧
    ((some (3 : Int) = none ∨ ∃ n : Int, some (3 : Int) = some n ∧ 0 ≤ n) ∧
     (some (5 : Int) = none ∨ ∃ n : Int, some (5 : Int) = some n ∧ 0 ≤ n)) :=
  ⟨by decide,
   from_ema_to_offsets_values [(0, "3-5")] [(0, some 3, some 5)] (by decide)
     (0, some 3, some 5) (by decide)⟩

/-- C2 counterexample: the address "5-3" parses to start = 5, end = 3
(start > end, both valid), and "x-5" parses to start invalid but end = 5 —
so it is false that every row has start ≤ end or both values invalid. -/
theorem from_ema_claim_counterexample :
    ¬ (∀ (df : List (Nat × String)) (out : List (Nat × Option Int × Option Int)),
        _from_ema_to_offsets df = some out →
        ∀ r ∈ out,
          (∃ s e : Int, r.2.1 = some s ∧ r.2.2 = some e ∧ 0 ≤ s ∧ s ≤ e) ∨
          (r.2.1 = none ∧ r.2.2 = none)) := by
  intro h
  have hrow := h [(0, "5-3"), (1, "x-5")] [(0, some 5, some 3), (1, none, some 5)]
    (by decide) (0, some 5, some 3) (by decide)
  rcases hrow with ⟨s, e, hs, he, _h0, hse⟩ | ⟨h1, _⟩
  · obtain rfl := Option.some.inj hs
    obtain rfl := Option.some.inj he
    exact absurd hse (by decide)
  · exact absurd h1 (by simp)

/-- C3: the address parser keeps the first `/`-segment, splits it on `,`
into one output row per range, forward-fills a lone number to
`start = end = value`, and coerces a value to integer iff it is purely
numeric: "3-5,7/2" yields exactly [(3,5), (7,7)], and "bad-addr" yields a
single (null, null) row whose row identifier is listed in the
invalid-rows diagnostic, without raising. -/
theorem from_ema_roundtrip :
    _from_ema_to_offsets [(0, "3-5,7/2")] =
      some [(0, some 3, some 5), (0, some 7, some 7)] ∧
    _from_ema_to_offsets [(0, "bad-addr")] = some [(0, none, none)] ∧
    invalidEmaRows [(0, (none : Option Int), (none : Option Int))] = [0] ∧
    (∀ s : String, ffillTo 2 [s] = [s, s]) ∧
    (∀ s : String, (coerceNum s).isSome ↔ (s ≠ "" ∧ s.data.all pyIsDigit)) := by
  refine ⟨by decide, by decide, by decide, ?_, ?_⟩
  · intro s
    simp [ffillTo, List.getLastD]
  · intro s
    simp only [coerceNum]
    split_ifs with hc
    · simp [hc]
    · exact iff_of_false (by simp) hc

theorem length_flatMap_const {α β : Type} (l : List α) (f : α → List β) (k : Nat)
    (h : ∀ a ∈ l, (f a).length = k) : (l.flatMap f).length = l.length * k := by
  induction l with
  | nil => simp
  | cons a l ih =>
    have ha := h a (List.mem_cons_self a l)
    have hl := ih fun b hb => h b (List.mem_cons_of_mem _ hb)
    simp [List.flatMap_cons, ha, hl, Nat.succ_mul, Nat.add_comm]

/-- C4: for `score_ngram` over a table with k distinct pattern strings and
any binary scoring function, the score table has exactly k² entries and
contains, for every ordered pair (p, q) of distinct patterns (self-pairs
included), the entry keyed by the pair holding `method` applied to the two
token tuples exactly as supplied — no symmetry between (p, q) and (q, p)
is assumed. -/
theorem score_ngram_matrix {α : Type} (cells : List String)
    (method : List String → List String → α) :
    (score_ngram cells method).length =
      (uniqueKeepFirst cells).length * (uniqueKeepFirst cells).length ∧
    ∀ p ∈ uniqueKeepFirst cells, ∀ q ∈ uniqueKeepFirst cells,
      ((joinTokens (tokens p), joinTokens (tokens q)),
        method (tokens p) (tokens q)) ∈ score_ngram cells method := by
  constructor
  · simp only [score_ngram]
    rw [length_flatMap_const ((uniqueKeepFirst cells).map tokens) _
      (uniqueKeepFirst cells).length fun a _ => by simp]
    rw [List.length_map]
  · intro p hp q hq
    simp only [score_ngram]
    refine List.mem_flatMap.2 ⟨tokens p, List.mem_map_of_mem tokens hp, ?_⟩
    exact List.mem_map.2 ⟨tokens q, List.mem_map_of_mem tokens hq, rfl⟩

theorem score_ngram_matrix_witness :
    uniqueKeepFirst ["A, B", "C", "A, B"] = ["A, B", "C"] ∧
    (score_ngram ["A, B", "C", "A, B"] fun a b => a.length * 10 + b.length).length =
      2 * 2 ∧
    ((joinTokens (tokens "A, B"), joinTokens (tokens "A, B")),
      (tokens "A, B").length * 10 + (tokens "A, B").length) ∈
      score_ngram ["A, B", "C", "A, B"] fun a b => a.length * 10 + b.length := by
  refine ⟨by decide, ?_, ?_⟩
  · exact (score_ngram_matrix ["A, B", "C", "A, B"]
      fun a b => a.length * 10 + b.length).1.trans (by decide)
  · exact (score_ngram_matrix ["A, B", "C", "A, B"]
      fun a b => a.length * 10 + b.length).2 "A, B" (by decide) "A, B" (by decide)

theorem mem_of_mem_voiceFilter {v : Option (List String)} {rows : List ProcRow}
    {r : ProcRow} (h : r ∈ voiceFilter v rows) : r ∈ rows := by
  unfold voiceFilter at h
  split_ifs at h
  · exact List.mem_of_mem_filter (List.mem_of_mem_filter h)
  · exact h

theorem mem_of_mem_patternFilter {sp : Option (List String)} {rows : List ProcRow}
    {r : ProcRow} (h : r ∈ patternFilter sp rows) : r ∈ rows := by
  unfold patternFilter at h
  split_ifs at h
  · exact List.mem_of_mem_filter (List.mem_of_mem_filter h)
  · exact h

theorem meltTable_length_eq {α β : Type} {index dIdx : List ℚ}
    {cols : List (String × List (Option α))} {dCols : List (String × List (Option β))}
    (hIdx : dIdx.length = index.length)
    (hF : List.Forall₂ (fun c d => c.2.length = d.2.length) cols dCols) :
    (meltTable dIdx dCols).length = (meltTable index cols).length := by
  induction hF with
  | nil => rfl
  | cons hcd _ ih =>
    simp only [meltTable, List.flatMap_cons, List.length_append, List.length_map,
      List.length_zip] at ih ⊢
    rw [hcd, hIdx, ih]

theorem mem_withDurEnd_of_length {pm : List (ℚ × Option String × String)}
    {dm : List (ℚ × Option ℚ × String)} {r : ProcRow}
    (hlen : pm.length = dm.length) (h : r ∈ withDurEnd pm dm) :
    ∃ (j : Nat) (h1 : j < pm.length) (h2 : j < dm.length),
      r.start = (pm.get ⟨j, h1⟩).1 ∧ r.pattern = (pm.get ⟨j, h1⟩).2.1 ∧
      r.voice = (pm.get ⟨j, h1⟩).2.2 ∧
      r.endv = ((dm.get ⟨j, h2⟩).2.1).map fun q => (pm.get ⟨j, h1⟩).1 + q := by
  induction pm generalizing dm with
  | nil => exact absurd h (by simp [withDurEnd])
  | cons p ps ih =>
    cases dm with
    | nil => exact absurd hlen (by simp)
    | cons d ds =>
      rw [withDurEnd] at h
      rcases List.mem_cons.1 h with rfl | h'
      · exact ⟨0, by simp, by simp, rfl, rfl, rfl, rfl⟩
      · obtain ⟨j, h1, h2, hs, hp, hv, he⟩ := ih (by simpa using hlen) h'
        exact ⟨j + 1, by simpa using h1, by simpa using h2, hs, hp, hv, he⟩

/-- C5: when a duration table of the same shape is supplied, every output
row of `process_ngrams_df` takes its `end` from `start + duration` at its
melt position (a missing duration leaves `end` missing); with no duration
table, every output row has `end = start + 1`; e.g. duration 5/2 at
offset 10 for voice "A" gives the row (start 10, end 25/2). -/
theorem process_ngrams_end_computation :
    (∀ (index : List ℚ) (cols : List (String × List (Option String)))
       (sp v : Option (List String)),
       ∀ r ∈ process_ngrams_df index cols none sp v, r.endv = some (r.start + 1)) ∧
    (∀ (index dIdx : List ℚ) (cols : List (String × List (Option String)))
       (dCols : List (String × List (Option ℚ))) (sp v : Option (List String)),
       dIdx.length = index.length →
       List.Forall₂ (fun c d => c.2.length = d.2.length) cols dCols →
       ∀ r ∈ process_ngrams_df index cols (some (dIdx, dCols)) sp v,
         ∃ (j : Nat) (h1 : j < (meltTable index cols).length)
           (h2 : j < (meltTable dIdx dCols).length),
           r.start = ((meltTable index cols).get ⟨j, h1⟩).1 ∧
           r.endv = (((meltTable dIdx dCols).get ⟨j, h2⟩).2.1).map
             fun q => r.start + q) ∧
    process_ngrams_df [10] [("A", [some "p"])] (some ([10], [("A", [some (5/2)])]))
      none none = [⟨10, some "p", "A", some (25/2)⟩] := by
  refine ⟨?_, ?_, ?_⟩
  · intro index cols sp v r hr
    simp only [process_ngrams_df] at hr
    have hr2 : r ∈ noDurEnd (meltTable index cols) :=
      mem_of_mem_voiceFilter (mem_of_mem_patternFilter hr)
    obtain ⟨p, _, rfl⟩ := List.mem_map.1 hr2
    rfl
  · intro index dIdx cols dCols sp v hIdx hF r hr
    simp only [process_ngrams_df] at hr
    have hr2 : r ∈ withDurEnd (meltTable index cols) (meltTable dIdx dCols) :=
      mem_of_mem_voiceFilter (mem_of_mem_patternFilter hr)
    have hlen : (meltTable index cols).length = (meltTable dIdx dCols).length :=
      (meltTable_length_eq hIdx hF).symm
    obtain ⟨j, h1, h2, hs, _hp, _hv, he⟩ := mem_withDurEnd_of_length hlen hr2
    refine ⟨j, h1, h2, hs, ?_⟩
    rw [hs]
    exact he
  · simp [process_ngrams_df, meltTable, withDurEnd, patternFilter, voiceFilter, truthy]
    norm_num

theorem process_ngrams_end_computation_witness :
    (⟨10, some "p", "A", some (25/2)⟩ : ProcRow) ∈
      process_ngrams_df [10] [("A", [some "p"])]
        (some ([10], [("A", [some (5/2)])])) none none ∧
    ∃ (j : Nat) (h1 : j < (meltTable [10] [("A", [some "p"])]).length)
      (h2 : j < (meltTable [10] [("A", [some ((5 : ℚ)/2)])]).length),
      (⟨10, some "p", "A", some (25/2)⟩ : ProcRow).start =
        ((meltTable [10] [("A", [some "p"])]).get ⟨j, h1⟩).1 ∧
      (⟨10, some "p", "A", some (25/2)⟩ : ProcRow).endv =
        (((meltTable [10] [("A", [some ((5 : ℚ)/2)])]).get ⟨j, h2⟩).2.1).map
          fun q => (⟨10, some "p", "A", some (25/2)⟩ : ProcRow).start + q := by
  have hval : process_ngrams_df [10] [("A", [some "p"])]
      (some ([10], [("A", [some (5/2)])])) none none =
      [⟨10, some "p", "A", some (25/2)⟩] := by
    simp [process_ngrams_df, meltTable, withDurEnd, patternFilter, voiceFilter, truthy]
    norm_num
  have hmem : (⟨10, some "p", "A", some (25/2)⟩ : ProcRow) ∈
      process_ngrams_df [10] [("A", [some "p"])]
        (some ([10], [("A", [some (5/2)])])) none none := by
    rw [hval]
    exact List.mem_singleton.2 rfl
  exact ⟨hmem, process_ngrams_end_computation.2.1 [10] [10] [("A", [some "p"])]
    [("A", [some (5/2)])] none none rfl
    (List.Forall₂.cons rfl List.Forall₂.nil)
    ⟨10, some "p", "A", some (25/2)⟩ hmem⟩

theorem voiceFilter_length_le (v : Option (List String)) (rows : List ProcRow) :
    (voiceFilter v rows).length ≤ rows.length := by
  unfold voiceFilter
  split_ifs
  · exact le_trans (List.length_filter_le _ _) (List.length_filter_le _ _)
  · exact le_rfl

theorem patternFilter_length_le (sp : Option (List String)) (rows : List ProcRow) :
    (patternFilter sp rows).length ≤ rows.length := by
  unfold patternFilter
  split_ifs
  · exact le_trans (List.length_filter_le _ _) (List.length_filter_le _ _)
  · exact le_rfl

theorem meltTable_length_le {α : Type} (index : List ℚ)
    (cols : List (String × List (Option α))) :
    (meltTable index cols).length ≤ index.length * cols.length := by
  induction cols with
  | nil => simp [meltTable]
  | cons c cs ih =>
    simp only [meltTable, List.flatMap_cons, List.length_append, List.length_map,
      List.length_zip] at ih ⊢
    have h1 : min index.length c.2.length ≤ index.length := Nat.min_le_left _ _
    simp only [List.length_cons, Nat.mul_succ]
    omega

theorem length_withDurEnd (pm : List (ℚ × Option String × String))
    (dm : List (ℚ × Option ℚ × String)) : (withDurEnd pm dm).length = pm.length := by
  induction pm generalizing dm with
  | nil => simp [withDurEnd]
  | cons p ps ih =>
    cases dm with
    | nil => simp [withDurEnd, ih]
    | cons d ds => simp [withDurEnd, ih]

theorem voice_mem_meltTable {α : Type} {index : List ℚ}
    {cols : List (String × List (Option α))} {p : ℚ × Option α × String}
    (h : p ∈ meltTable index cols) : p.2.2 ∈ cols.map Prod.fst := by
  obtain ⟨c, hc, hp⟩ := List.mem_flatMap.1 h
  obtain ⟨q, _, rfl⟩ := List.mem_map.1 hp
  exact List.mem_map.2 ⟨c, hc, rfl⟩

theorem withDurEnd_voice {pm : List (ℚ × Option String × String)}
    {dm : List (ℚ × Option ℚ × String)} {r : ProcRow} (h : r ∈ withDurEnd pm dm) :
    ∃ p ∈ pm, r.voice = p.2.2 := by
  induction pm generalizing dm with
  | nil => exact absurd h (by simp [withDurEnd])
  | cons p ps ih =>
    cases dm with
    | nil =>
      rw [withDurEnd] at h
      rcases List.mem_cons.1 h with rfl | h'
      · exact ⟨p, List.mem_cons_self p ps, rfl⟩
      · obtain ⟨q, hq, hv⟩ := ih h'
        exact ⟨q, List.mem_cons_of_mem _ hq, hv⟩
    | cons d ds =>
      rw [withDurEnd] at h
      rcases List.mem_cons.1 h with rfl | h'
      · exact ⟨p, List.mem_cons_self p ps, rfl⟩
      · obtain ⟨q, hq, hv⟩ := ih h'
        exact ⟨q, List.mem_cons_of_mem _ hq, hv⟩

/-- C9: for every input n-gram table with R index rows and V voice columns
and any voice/pattern filters, `process_ngrams_df` outputs at most R×V
rows, and every output row's voice is one of the V column names. -/
theorem process_ngrams_shape (index : List ℚ) (cols : List (String × List (Option String)))
    (dur : Option (List ℚ × List (String × List (Option ℚ))))
    (sp v : Option (List String)) :
    (process_ngrams_df index cols dur sp v).length ≤ index.length * cols.length ∧
    ∀ r ∈ process_ngrams_df index cols dur sp v, r.voice ∈ cols.map Prod.fst := by
  cases dur with
  | none =>
    constructor
    · refine le_trans (patternFilter_length_le _ _) (le_trans (voiceFilter_length_le _ _) ?_)
      simp only [noDurEnd, List.length_map]
      exact meltTable_length_le index cols
    · intro r hr
      have hr2 : r ∈ noDurEnd (meltTable index cols) :=
        mem_of_mem_voiceFilter (mem_of_mem_patternFilter hr)
      obtain ⟨p, hp, rfl⟩ := List.mem_map.1 hr2
      exact voice_mem_meltTable hp
  | some d =>
    constructor
    · refine le_trans (patternFilter_length_le _ _) (le_trans (voiceFilter_length_le _ _) ?_)
      rw [length_withDurEnd]
      exact meltTable_length_le index cols
    · intro r hr
      have hr2 : r ∈ withDurEnd (meltTable index cols) (meltTable d.1 d.2) :=
        mem_of_mem_voiceFilter (mem_of_mem_patternFilter hr)
      obtain ⟨p, hp, hv⟩ := withDurEnd_voice hr2
      rw [hv]
      exact voice_mem_meltTable hp

theorem process_ngrams_shape_witness :
    (process_ngrams_df [0] [("S", [some "p"])] none none none).length ≤ 1 * 1 ∧
    (⟨0, some "p", "S", some 1⟩ : ProcRow).voice ∈
      ([("S", [some "p"])].map Prod.fst : List String) := by
  have hval : process_ngrams_df [0] [("S", [some "p"])] none none none =
      [⟨0, some "p", "S", some 1⟩] := by
    simp [process_ngrams_df, meltTable, noDurEnd, patternFilter, voiceFilter, truthy]
  have hmem : (⟨0, some "p", "S", some 1⟩ : ProcRow) ∈
      process_ngrams_df [0] [("S", [some "p"])] none none none := by
    rw [hval]
    exact List.mem_singleton.2 rfl
  exact ⟨(process_ngrams_shape [0] [("S", [some "p"])] none none none).1,
    (process_ngrams_shape [0] [("S", [some "p"])] none none none).2 _ hmem⟩

/-- C10: passing an empty list for `voices` or for `selected_pattern` to
`process_ngrams_df` is the same as passing None for that argument — an
empty selector applies no filter — and `plot_ngrams_heatmap` with its
default empty selectors processes exactly as with no selectors. -/
theorem process_ngrams_empty_selector (index : List ℚ)
    (cols : List (String × List (Option String)))
    (dur : Option (List ℚ × List (String × List (Option ℚ))))
    (sp v : Option (List String)) :
    process_ngrams_df index cols dur (some []) v =
      process_ngrams_df index cols dur none v ∧
    process_ngrams_df index cols dur sp (some []) =
      process_ngrams_df index cols dur sp none ∧
    plot_ngrams_heatmap_data index cols dur [] [] =
      dropnaAny (process_ngrams_df index cols dur none none) :=
  ⟨rfl, rfl, rfl⟩

theorem lookupWeight_not_mem {t : String} :
    ∀ l : List (String × Int), t ∉ l.map Prod.fst → lookupWeight t l = none := by
  intro l
  induction l with
  | nil => intro _; rfl
  | cons p ps ih =>
    intro h
    simp only [List.map_cons, List.mem_cons] at h
    push_neg at h
    rw [lookupWeight, if_neg h.1]
    exact ih h.2

/-- C6: in `plot_relationship_network`, every relationship row whose
relationship_type is a key of the fixed RELATIONSHIP_WEIGHTS table gets
edge weight RELATIONSHIP_WEIGHTS[type]; every other relationship_type
string defaults to weight 0 without an error; every edge of a
successfully built network carries the looked-up weight of its type. -/
theorem relationship_weight_lookup :
    (∀ p ∈ RELATIONSHIP_WEIGHTS, weightOf p.1 = p.2) ∧
    (∀ t : String, t ∉ RELATIONSHIP_WEIGHTS.map Prod.fst → weightOf t = 0) ∧
    (∀ (df : List RelRow) (color : String) (selT selM selD selF : List String)
       (net : NetGraph),
       plot_relationship_network df color selT selM selD selF = .ok net →
       ∀ e ∈ net.edges, e.2.2.1 = weightOf e.2.2.2) := by
  refine ⟨by decide, ?_, ?_⟩
  · intro t ht
    rw [weightOf, lookupWeight_not_mem _ ht]
    rfl
  · intro df color selT selM selD selF net hnet e he
    simp only [plot_relationship_network] at hnet
    split_ifs at hnet
    · have hbn := Except.ok.inj hnet
      rw [← hbn] at he
      simp only [buildNet] at he
      obtain ⟨r, _, rfl⟩ := List.mem_map.1 he
      rfl
    · have hbn := Except.ok.inj hnet
      rw [← hbn] at he
      simp only [buildNet] at he
      obtain ⟨r, _, rfl⟩ := List.mem_map.1 he
      rfl

theorem relationship_weight_lookup_witness :
    (("Omission", (5 : Int)) ∈ RELATIONSHIP_WEIGHTS ∧ weightOf "Omission" = 5) ∧
    ("Unknown kind" ∉ RELATIONSHIP_WEIGHTS.map Prod.fst ∧ weightOf "Unknown kind" = 0) ∧
    (plot_relationship_network [⟨"1-2", "P1", "Quotation", "P2", "3-4"⟩]
        "derivative" [] [] [] [] =
      .ok ⟨[("P1:1-2", none), ("P2:3-4", some "Quotation")],
           [("P1:1-2", "P2:3-4", 1, "Quotation")], "to"⟩ ∧
     (1 : Int) = weightOf "Quotation") := by
  refine ⟨⟨by decide, relationship_weight_lookup.1 ("Omission", 5) (by decide)⟩,
    ⟨by decide, relationship_weight_lookup.2.1 _ (by decide)⟩, ⟨by rfl, ?_⟩⟩
  exact relationship_weight_lookup.2.2 [⟨"1-2", "P1", "Quotation", "P2", "3-4"⟩]
    "derivative" [] [] [] []
    ⟨[("P1:1-2", none), ("P2:3-4", some "Quotation")],
     [("P1:1-2", "P2:3-4", 1, "Quotation")], "to"⟩
    (by rfl) ("P1:1-2", "P2:3-4", 1, "Quotation") (by decide)

/-- C7: invalid mode flags fail fast — `plot_relationship_network` raises
for any `color` other than "derivative"/"model", and
`plot_close_match_heatmap` raises for any `compare` other than "d"/"s";
the result is an error, not a recovered value. -/
theorem invalid_mode_flags_raise :
    (∀ (df : List RelRow) (selT selM selD selF : List String) (color : String),
       color ≠ "derivative" → color ≠ "model" →
       ∃ msg, plot_relationship_network df color selT selM selD selF = .error msg) ∧
    (∀ (index : List ℚ) (cols : List (String × List (Option String)))
       (key : String) (score_df : List ((String × String) × ℚ))
       (dur : Option (List ℚ × List (String × List (Option ℚ))))
       (sp v : List String) (compare : String),
       compare ≠ "d" → compare ≠ "s" →
       ∃ msg, plot_close_match_heatmap index cols key score_df compare dur sp v =
         .error msg) := by
  constructor
  · intro df selT selM selD selF color h1 h2
    refine ⟨"Invalid input for color, please put derivative or model.", ?_⟩
    simp only [plot_relationship_network]
    rw [if_neg h1, if_neg h2]
  · intro index cols key score_df dur sp v compare h1 h2
    simp only [plot_close_match_heatmap]
    cases hm : (dropnaAny (process_ngrams_df index cols dur (some sp) (some v))).mapM
        (fun r => (lookupScore score_df (key, r.pattern.getD "")).map fun s => (r, s)) with
    | none => exact ⟨"KeyError", rfl⟩
    | some scored =>
      refine ⟨"Please input d for distance and s for similarity!", ?_⟩
      show (if compare = "d" then Except.ok (⟨scored, "descending"⟩ : CloseMatchChart)
            else if compare = "s" then Except.ok (⟨scored, "ascending"⟩ : CloseMatchChart)
            else Except.error "Please input d for distance and s for similarity!") = _
      rw [if_neg h1, if_neg h2]

theorem invalid_mode_flags_raise_witness :
    ("x" ≠ "derivative" ∧ "x" ≠ "model" ∧ "q" ≠ "d" ∧ "q" ≠ "s") ∧
    (∃ msg, plot_relationship_network [] "x" [] [] [] [] = .error msg) ∧
    (∃ msg, plot_close_match_heatmap [] [] "k" [] "q" none [] [] = .error msg) :=
  ⟨by decide,
   invalid_mode_flags_raise.1 [] [] [] [] [] "x" (by decide) (by decide),
   invalid_mode_flags_raise.2 [] [] "k" [] none [] [] "q" (by decide) (by decide)⟩

/-- C8: no public operation of the core mutates the caller-supplied input
frame: `process_ngrams_df` (on both its input tables),
`plot_comparison_heatmap` and `plot_relationship_network` leave the
caller's heap cell unchanged — every in-place pandas operation they
perform targets the defensive copy or a freshly allocated frame. -/
theorem no_caller_mutation :
    (∀ (r rd : Nat) (sp v : Option (List String)) (hp : Heap (TableS String))
       (hd : Heap (TableS ℚ)) (rdur : Option Nat), r < hp.next → rd < hd.next →
       (process_ngrams_dfS r rdur sp v hp hd).2.1.cells r = hp.cells r ∧
       (process_ngrams_dfS r rdur sp v hp hd).2.2.cells rd = hd.cells rd) ∧
    (∀ (r : Nat) (mc oc : String) (h : Heap ObsDF), r < h.next →
       (plot_comparison_heatmapS r mc oc h).2.cells r = h.cells r) ∧
    (∀ (r : Nat) (color : String) (selT selM selD selF : List String)
       (h : Heap RelDF), r < h.next →
       (plot_relationship_networkS r color selT selM selD selF h).2.cells r =
         h.cells r) := by
  refine ⟨?_, ?_, ?_⟩
  · intro r rd sp v hp hd rdur hr hrd
    have h1 : r ≠ hp.next := Nat.ne_of_lt hr
    have h2 : rd ≠ hd.next := Nat.ne_of_lt hrd
    cases rdur with
    | none =>
      constructor <;>
        simp [process_ngrams_dfS, Heap.alloc, Heap.write, Heap.read,
          Function.update_apply, h1, h2]
    | some rdv =>
      constructor <;>
        simp [process_ngrams_dfS, Heap.alloc, Heap.write, Heap.read,
          Function.update_apply, h1, h2]
  · intro r mc oc h hr
    have h1 : r ≠ h.next := Nat.ne_of_lt hr
    have h2 : r ≠ h.next + 1 := by omega
    simp only [plot_comparison_heatmapS, Heap.alloc, Heap.write, Heap.read]
    split <;> simp [Function.update_apply, h1, h2]
  · intro r color selT selM selD selF h hr
    have h1 : r ≠ h.next := Nat.ne_of_lt hr
    have h2 : r ≠ h.next + 1 := by omega
    simp only [plot_relationship_networkS, Heap.alloc, Heap.write, Heap.read]
    by_cases hf :
        (!selT.isEmpty || !selM.isEmpty || !selD.isEmpty || !selF.isEmpty) = true
    · rw [if_pos hf]
      simp [Function.update_apply, h1, h2]
    · rw [if_neg hf]
      simp [Function.update_apply, h1, h2]

theorem no_caller_mutation_witness :
    ((process_ngrams_dfS 0 none none none ⟨fun _ => ⟨none, [], []⟩, 1⟩
        ⟨fun _ => ⟨none, [], []⟩, 1⟩).2.1.cells 0 =
      (⟨fun _ => ⟨none, [], []⟩, 1⟩ : Heap (TableS String)).cells 0) ∧
    ((plot_comparison_heatmapS 0 "a" "b"
        ⟨fun _ => ⟨[], none, none, none, none, "", ""⟩, 1⟩).2.cells 0 =
      (⟨fun _ => ⟨[], none, none, none, none, "", ""⟩, 1⟩ : Heap ObsDF).cells 0) ∧
    ((plot_relationship_networkS 0 "derivative" [] [] [] []
        ⟨fun _ => ⟨[], none, none, none⟩, 1⟩).2.cells 0 =
      (⟨fun _ => ⟨[], none, none, none⟩, 1⟩ : Heap RelDF).cells 0) :=
  ⟨(no_caller_mutation.1 0 0 none none _ _ none (by decide) (by decide)).1,
   no_caller_mutation.2.1 0 "a" "b" _ (by decide),
   no_caller_mutation.2.2 0 "derivative" [] [] [] [] _ (by decide)⟩
